import Mathlib

/-!
Verification development for the Dork repository (src/dork/types.py and
src/dork/saveload.py).

The minimap builder (`Map` in types.py) is embedded as pure functions over
association lists: a Python `dict` is modelled as a `List (κ × α)` in which
`setKV` updates an existing key in place (preserving its position) and
appends a fresh key at the end, exactly like CPython dict insertion order,
and `getKV` is dict lookup.  Python exceptions (KeyError from `nodes[...]`,
ValueError from `min`/`max` over an empty collection) are modelled with
`Except MapErr`.
-/

set_option autoImplicit false

namespace Dork

universe u v

/-- Dict lookup: first entry whose key matches (Python dicts have unique keys,
so first = the entry). `none` models a KeyError / `in`-test failure. -/
def getKV {κ : Type u} {α : Type v} [DecidableEq κ] (k : κ) : List (κ × α) → Option α
  | [] => none
  | (k', v) :: rest => if k' = k then some v else getKV k rest

/-- Dict assignment `m[k] = v`: replaces the value in place if the key is
present (keeping its position, like CPython), else appends the new pair. -/
def setKV {κ : Type u} {α : Type v} [DecidableEq κ] (m : List (κ × α)) (k : κ) (v : α) :
    List (κ × α) :=
  match m with
  | [] => [(k, v)]
  | (k', v') :: rest => if k' = k then (k, v) :: rest else (k', v') :: setKV rest k v

/-- `Map.Point` (types.py line 29): integer x, y coordinates. -/
structure Point where
  x : Int
  y : Int
deriving DecidableEq, Repr

/-- The four grid directions iterated by `_construct_minimap`
(types.py line 89: `["up", "down", "left", "right"]`). -/
inductive Dir where
  | up
  | down
  | left
  | right
deriving DecidableEq, Repr

/-- The direction list literal of types.py line 89, in iteration order. -/
def dirList : List Dir := [.up, .down, .left, .right]

/-- A room as seen by the minimap builder: the four directional entries of
`room.paths`.  The world format gives every room a `paths` mapping containing
all four grid-direction keys, each either null (`none`) or a room name
(`some name`, names being non-empty strings), so the truthiness test
`if room.paths[direction]:` of types.py line 55 is `Option.isSome`. -/
structure MRoom where
  up : Option String
  down : Option String
  left : Option String
  right : Option String
deriving DecidableEq, Repr

/-- `room.paths[direction]` for the four grid directions. -/
def MRoom.paths (r : MRoom) : Dir → Option String
  | .up => r.up
  | .down => r.down
  | .left => r.left
  | .right => r.right

/-- Python exceptions escaping `Map.__init__`: `KeyError` from a `nodes[...]`
lookup of a name that is not a room key (types.py line 70), and the
`ValueError` raised by `min`/`max` over the empty `origins.values()`
(types.py lines 127-128). -/
inductive MapErr where
  | keyError (k : String)
  | emptyOrigins
deriving DecidableEq, Repr

/-- The displacement of types.py lines 61-68: the four `if direction == ...`
tests applied to the source room's coordinates. -/
def displace (p : Point) : Dir → Point
  | .up => ⟨p.x, p.y - 1⟩
  | .down => ⟨p.x, p.y + 1⟩
  | .left => ⟨p.x - 1, p.y⟩
  | .right => ⟨p.x + 1, p.y⟩

abbrev Origins := List (String × Point)

abbrev Edges := List (Nat × Nat)

/-- `if k not in origins: origins[k] = Map.Point(x=0, y=0)`
(types.py lines 56-59). -/
def ensureKV (origins : Origins) (k : String) : Origins :=
  if (getKV k origins).isSome then origins else setKV origins k ⟨0, 0⟩

/-- `Map._adjust_minimap_origins` (types.py lines 40-71).  If the exit is
null the origins are untouched and no edge is returned (the Python empty
tuple, filtered out later).  Otherwise: default the source then the
destination to (0,0) when unseen, displace the source's coordinates one unit
along the direction, assign the result to the destination unconditionally
(types.py line 69), and return the provisional-id edge — where a `nodes`
lookup of a name that is not a room key raises KeyError (`nodes[name]` is
evaluated before `nodes[room.paths[direction]]`). -/
def adjustMinimapOrigins (room : MRoom) (direction : Dir) (origins : Origins)
    (name : String) (nodes : List (String × Nat)) :
    Except MapErr (Origins × Option (Nat × Nat)) :=
  match room.paths direction with
  | none => .ok (origins, none)
  | some dest =>
    let origins1 := ensureKV origins name
    let origins2 := ensureKV origins1 dest
    let p := displace ((getKV name origins2).getD ⟨0, 0⟩) direction
    let origins3 := setKV origins2 dest p
    match getKV name nodes with
    | none => .error (.keyError name)
    | some a =>
      match getKV dest nodes with
      | none => .error (.keyError dest)
      | some b => .ok (origins3, some (a, b))

/-- The inner loop of `_construct_minimap` (types.py lines 89-91): fold
`_adjust_minimap_origins` over a direction list, collecting the non-empty
edge tuples in order (the Python code appends every returned tuple and
filters out the empty ones at line 93; the net edge list is the same). -/
def constructDirs (room : MRoom) (name : String) (nodes : List (String × Nat)) :
    List Dir → Origins × Edges → Except MapErr (Origins × Edges)
  | [], acc => .ok acc
  | d :: ds, acc =>
    match adjustMinimapOrigins room d acc.1 name nodes with
    | .error e => .error e
    | .ok (o', eo) => constructDirs room name nodes ds (o', acc.2 ++ eo.toList)

/-- The outer loop of `_construct_minimap` (types.py line 88):
`for name, room in rooms.items()`. -/
def constructRooms (nodes : List (String × Nat)) :
    List (String × MRoom) → Origins × Edges → Except MapErr (Origins × Edges)
  | [], acc => .ok acc
  | (name, room) :: rest, acc =>
    match constructDirs room name nodes dirList acc with
    | .error e => .error e
    | .ok acc' => constructRooms nodes rest acc'

/-- `Map._construct_minimap` (types.py lines 73-94): starts from empty
origins and an edge-less graph and processes every room and direction. -/
def constructMinimap (nodes : List (String × Nat)) (rooms : List (String × MRoom)) :
    Except MapErr (Origins × Edges) :=
  constructRooms nodes rooms ([], [])

/-- `zip(rooms.keys(), range(0, len(rooms.keys())))` (types.py lines
122-123), generalized over the starting index for induction. -/
def mkNodesFrom : Nat → List String → List (String × Nat)
  | _, [] => []
  | i, n :: ns => (n, i) :: mkNodesFrom (i + 1) ns

/-- The provisional node-id dictionary of types.py lines 122-123. -/
def mkNodes (rooms : List (String × MRoom)) : List (String × Nat) :=
  mkNodesFrom 0 (rooms.map (·.1))

/-- `min(origins.values(), key=lambda origin: origin.x).x` on a nonempty
collection (the empty case raises and is handled by the caller). -/
def minX : Origins → Int
  | [] => 0
  | np :: rest => rest.foldl (fun a q => min a q.2.x) np.2.x

/-- `min(origins.values(), key=lambda origin: origin.y).y`. -/
def minY : Origins → Int
  | [] => 0
  | np :: rest => rest.foldl (fun a q => min a q.2.y) np.2.y

/-- `max(origins.values(), key=lambda origin: origin.x).x`. -/
def maxX : Origins → Int
  | [] => 0
  | np :: rest => rest.foldl (fun a q => max a q.2.x) np.2.x

/-- `max(origins.values(), key=lambda node: node.y).y` (types.py line 161). -/
def maxY : Origins → Int
  | [] => 0
  | np :: rest => rest.foldl (fun a q => max a q.2.y) np.2.y

/-- networkx adjacency: adding edge (a, b) to an undirected `nx.Graph`
records b as a neighbor of a and a as a neighbor of b, once each (re-adding
an existing edge changes nothing; a self-loop (v, v) records v as its own
neighbor).  Neighbor order is insertion order, as in networkx. -/
def nxAdd (ns : List Nat) (u : Nat) : List Nat :=
  if u ∈ ns then ns else ns ++ [u]

def nxNeighborsAux (v : Nat) : Edges → List Nat → List Nat
  | [], ns => ns
  | e :: es, ns =>
    nxNeighborsAux v es
      (if e.1 = v then nxAdd ns e.2 else if e.2 = v then nxAdd ns e.1 else ns)

/-- The neighbor list `[u for (v, u) in minimap.edges(v)]` of the graph
obtained by `add_edges_from` on the collected edge list. -/
def nxNeighbors (edges : Edges) (v : Nat) : List Nat :=
  nxNeighborsAux v edges []

/-- The per-room rendering record of types.py lines 139-147:
`{room_name: {"node_id": ..., "edges": [...]}}`. -/
structure RoomInfo where
  node_id : Int
  edges : List Int
deriving DecidableEq, Repr

/-- The data computed by `Map.__init__` and stored on the instance:
`self.origins` (normalized) and `self.room_map`. -/
structure MapData where
  origins : Origins
  room_map : List (String × RoomInfo)
deriving DecidableEq, Repr

/-- The normalization pass of types.py lines 127-135: `dx`/`dy` are the raw
minima (both computed before any shift); a strictly negative minimum on an
axis shifts every room by its absolute value on that axis. -/
def normalizeOrigins (l : Origins) : Origins :=
  let dx := minX l
  let dy := minY l
  let l1 := if dx < 0 then l.map (fun np => (np.1, Point.mk (np.2.x + |dx|) np.2.y)) else l
  if dy < 0 then l1.map (fun np => (np.1, Point.mk np.2.x (np.2.y + |dy|))) else l1

/-- types.py lines 137-147.  `width = max(x) + 1` over the normalized
origins; each room's final node id is `x + y*width`; the provisional-id
dictionary is extended with `nodes[nodes[name]] = node_id` (modelled as the
`finalIds` fold — construction has succeeded, so every origins key is a room
key and the `getD 0` defaults are never taken); each room's edge list maps
the provisional neighbor ids of `minimap.edges(nodes[name])` through the
final ids. -/
def finalIdsOf (nodes : List (String × Nat)) (origins : Origins) : List (Nat × Int) :=
  origins.foldl
    (fun acc np =>
      setKV acc ((getKV np.1 nodes).getD 0) (np.2.x + np.2.y * (maxX origins + 1))) []

def buildRoomMap (nodes : List (String × Nat)) (edges : Edges) (origins : Origins) :
    List (String × RoomInfo) :=
  origins.map (fun np =>
    (np.1,
      { node_id := np.2.x + np.2.y * (maxX origins + 1),
        edges := (nxNeighbors edges ((getKV np.1 nodes).getD 0)).map
          (fun u => (getKV u (finalIdsOf nodes origins)).getD 0) }))

/-- `Map.__init__` (types.py lines 118-150), up to the window/draw calls:
build provisional ids, run `_construct_minimap`, fail like the Python
`min(...)` ValueError when no room produced an origin, normalize, and build
`room_map`. -/
def mkMap (rooms : List (String × MRoom)) : Except MapErr MapData :=
  let nodes := mkNodes rooms
  match constructMinimap nodes rooms with
  | .error e => .error e
  | .ok (origins, edges) =>
    if origins.isEmpty then .error .emptyOrigins
    else
      let norm := normalizeOrigins origins
      .ok { origins := norm, room_map := buildRoomMap nodes edges norm }

/-! ## Loaded world data, entity records and save/load (types.py lines 187-288) -/

/-- A loaded YAML value: the nested mappings handed to `Game(data)`.
Mappings are association lists in document order (Python dicts). -/
inductive Val where
  | null : Val
  | bool : Bool → Val
  | int : Int → Val
  | str : String → Val
  | list : List Val → Val
  | dict : List (String × Val) → Val

/-- The entries of a mapping; a non-mapping has no `.get`/`.items()` and the
Python attribute access raises, modelled as `none`. -/
def Val.asDict? : Val → Option (List (String × Val))
  | .dict l => some l
  | _ => none

def Val.asStr? : Val → Option String
  | .str s => some s
  | _ => none

/-- The key list of a saved mapping. -/
def Val.keys : Val → List String
  | .dict l => l.map (·.1)
  | _ => []

/-- Python `data.get(k)`: the stored value, or `None` when the key is
absent. -/
def dget (d : List (String × Val)) (k : String) : Val :=
  (getKV k d).getD .null

/-- `Player.__init__` fields (types.py lines 221-224). -/
structure Player where
  position : Val
  inventory : Val
  stats : Val

/-- `Player(data)`: three `data.get` reads; fails when `data` is not a
mapping (Python AttributeError on `.get`). -/
def loadPlayer (v : Val) : Option Player :=
  (v.asDict?).map fun d => ⟨dget d "position", dget d "inventory", dget d "stats"⟩

/-- `Player.save` (types.py lines 226-233). -/
def Player.save (p : Player) : Val :=
  .dict [("position", p.position), ("inventory", p.inventory), ("stats", p.stats)]

/-- `Room.__init__` fields (types.py lines 240-244). -/
structure Room where
  messages : Val
  door : Val
  fight : Val
  paths : Val

def loadRoom (v : Val) : Option Room :=
  (v.asDict?).map fun d => ⟨dget d "messages", dget d "door", dget d "fight", dget d "paths"⟩

/-- `Room.save` (types.py lines 246-254). -/
def Room.save (r : Room) : Val :=
  .dict [("messages", r.messages), ("door", r.door), ("fight", r.fight), ("paths", r.paths)]

/-- `Item.__init__` fields (types.py lines 260-262). -/
structure Item where
  description : Val
  damage : Val

def loadItem (v : Val) : Option Item :=
  (v.asDict?).map fun d => ⟨dget d "description", dget d "damage"⟩

/-- `Item.save` (types.py lines 264-270). -/
def Item.save (i : Item) : Val :=
  .dict [("description", i.description), ("damage", i.damage)]

/-- `Nonplayer.__init__` fields (types.py lines 276-279). -/
structure Nonplayer where
  health : Val
  attack : Val
  points : Val

def loadNonplayer (v : Val) : Option Nonplayer :=
  (v.asDict?).map fun d => ⟨dget d "health", dget d "attack", dget d "points"⟩

/-- `Nonplayer.save` (types.py lines 281-288). -/
def Nonplayer.save (n : Nonplayer) : Val :=
  .dict [("health", n.health), ("attack", n.attack), ("points", n.points)]

/-- The dict comprehensions of `Game.__init__` (types.py lines 193-198):
construct an entity per entry, in document order; a single bad entry makes
the whole construction fail. -/
def loadEach {α : Type} (load : Val → Option α) :
    List (String × Val) → Option (List (String × α))
  | [] => some []
  | (n, v) :: rest =>
    (load v).bind fun a =>
    (loadEach load rest).bind fun rest' =>
    some ((n, a) :: rest')

/-- The minimap's view of a loaded `Room`: `Map` reads
`room.paths[direction]` for the four grid directions (types.py line 55), so
`paths` must be a mapping that has all four keys, each null or a room name;
any other shape raises inside `Map.__init__`, modelled as `none`. -/
def Val.asExit? : Val → Option (Option String)
  | .null => some none
  | .str s => some (some s)
  | _ => none

def Room.toMRoom? (r : Room) : Option MRoom :=
  r.paths.asDict?.bind fun pd =>
  (getKV "up" pd).bind fun uv => uv.asExit?.bind fun u =>
  (getKV "down" pd).bind fun dv => dv.asExit?.bind fun d =>
  (getKV "left" pd).bind fun lv => lv.asExit?.bind fun l =>
  (getKV "right" pd).bind fun rv => rv.asExit?.bind fun ri =>
  some ⟨u, d, l, ri⟩

def toMRooms? : List (String × Room) → Option (List (String × MRoom))
  | [] => some []
  | (n, r) :: rest =>
    r.toMRoom?.bind fun mr =>
    (toMRooms? rest).bind fun rest' =>
    some ((n, mr) :: rest')

/-! ## The renderer's highlight (`Map.show`, types.py lines 158-167) -/

/-- `labels = {node_info["node_id"]: room for room, node_info in
self.room_map.items()}` (types.py lines 159-160): a dict keyed by node id,
so a later room with the same node id overwrites the label in place. -/
def minimapLabels (rm : List (String × RoomInfo)) : List String :=
  (rm.foldl (fun acc nr => setKV acc nr.2.node_id nr.1) []).map (·.2)

/-- Python `list.index`: the index of the first occurrence, ValueError
(`none`) when absent. -/
def listIndex (loc : String) : List String → Option Nat
  | [] => none
  | v :: rest => if v = loc then some 0 else (listIndex loc rest).map (· + 1)

/-- types.py lines 165-167: a uniform "blue" color list with the entry at
`list(labels.values()).index(location)` set to "red"; `.index` raises
ValueError (`none`) when the location is not among the labels. -/
def showColors (rm : List (String × RoomInfo)) (location : String) : Option (List String) :=
  let vals := minimapLabels rm
  match listIndex location vals with
  | none => none
  | some i => some ((List.replicate vals.length "blue").set i "red")

/-! ## `Game` (types.py lines 187-215) -/

/-- The game state: the four entity groups plus the derived minimap. -/
structure Game where
  player : Player
  rooms : List (String × Room)
  items : List (String × Item)
  npc : List (String × Nonplayer)
  room_map : MapData

/-- `Game.save` (types.py lines 201-215): a fresh nested mapping holding
exactly the player/rooms/items/npc fields; the minimap is not saved. -/
def Game.save (g : Game) : Val :=
  .dict
    [("player", g.player.save),
     ("rooms", .dict (g.rooms.map fun nr => (nr.1, nr.2.save))),
     ("items", .dict (g.items.map fun nr => (nr.1, nr.2.save))),
     ("npc", .dict (g.npc.map fun nr => (nr.1, nr.2.save)))]

/-- The tail of `Game.__init__`: `self.room_map = Map(self)`, including the
first `show()` call, whose highlight lookup reads
`player.position["location"]` and requires it to be among the labels
(types.py lines 158-167). -/
def finishLoad (player : Player) (rooms : List (String × Room))
    (items : List (String × Item)) (npc : List (String × Nonplayer)) : Option Game :=
  (toMRooms? rooms).bind fun mrooms =>
  (mkMap mrooms).toOption.bind fun m =>
  player.position.asDict?.bind fun posd =>
  (getKV "location" posd).bind fun locv =>
  locv.asStr?.bind fun loc =>
  (showColors m.room_map loc).bind fun _ =>
  some ⟨player, rooms, items, npc, m⟩

/-- `Game(data)` (types.py lines 190-199): `data['player']` (KeyError when
absent), then the rooms/items/npc dict comprehensions over
`data.get(...)`.items()` (which raise when the key is missing or not a
mapping), then the minimap. -/
def loadGame (d : Val) : Option Game :=
  d.asDict?.bind fun dd =>
  (getKV "player" dd).bind fun pv =>
  (loadPlayer pv).bind fun player =>
  (dget dd "rooms").asDict?.bind fun rd =>
  (loadEach loadRoom rd).bind fun rooms =>
  (dget dd "items").asDict?.bind fun itd =>
  (loadEach loadItem itd).bind fun items =>
  (dget dd "npc").asDict?.bind fun npd =>
  (loadEach loadNonplayer npd).bind fun npc =>
  finishLoad player rooms items npc

/-! ## The validator (saveload.py lines 31-41 and 65-68) -/

/-- saveload.py line 8: the directions the validator's loop checks. -/
def DIRECTIONS : List String := ["north", "south", "east", "west"]

/-- `_path(rooms, name, direction)` (saveload.py lines 31-41): the one
diagnostic line it prints; `none` is the KeyError of `rooms[name]` for a
name that is not a key (never hit from the main loop).  A room mapping's
exit values are null (`none`) or a room name, per the world format. -/
def pathCheck (rooms : List (String × List (String × Option String)))
    (name direction : String) : Option String :=
  (getKV name rooms).map fun room =>
    match getKV direction room with
    | none => name ++ " does not have " ++ direction ++ " as a key."
    | some none => "There is nothing " ++ direction ++ " of " ++ name ++ "."
    | some (some other) =>
      if (getKV other rooms).isSome then
        other ++ " is " ++ direction ++ " of " ++ name ++ "."
      else
        "Going " ++ direction ++ " from " ++ name ++ " will lead to an error."

/-- The room-checking loop of `main` (saveload.py lines 65-68): one line per
room and direction, in order; the loop never aborts. -/
def checkRooms (rooms : List (String × List (String × Option String))) : List String :=
  rooms.flatMap fun nr => DIRECTIONS.filterMap (pathCheck rooms nr.1)

/-! ## Concrete example data -/

/-- A room with all four directional exits null. -/
def noExitRoom : MRoom := ⟨none, none, none, none⟩

/-- Two rooms pointing `right` at each other: `{A: {right: B}, B: {right: A}}`. -/
def rightCycleRooms : List (String × MRoom) :=
  [("A", { noExitRoom with right := some "B" }),
   ("B", { noExitRoom with right := some "A" })]

/-- A single self-referential room: `{A: {right: A}}`. -/
def selfLoopRooms : List (String × MRoom) :=
  [("A", { noExitRoom with right := some "A" })]

/-- The spec's worked example `{A: {up: B}, B: {down: A}}`. -/
def upDownRooms : List (String × MRoom) :=
  [("A", { noExitRoom with up := some "B" }),
   ("B", { noExitRoom with down := some "A" })]

/-- The map the builder produces for `upDownRooms`. -/
def upDownMap : MapData :=
  { origins := [("A", ⟨0, 1⟩), ("B", ⟨0, 0⟩)],
    room_map := [("A", ⟨1, [0]⟩), ("B", ⟨0, [1]⟩)] }

/-- A single room with no exits at all. -/
def singleNoExit : List (String × MRoom) := [("A", noExitRoom)]

/-- A one-directional reference: `{A: {right: B}, B: {}}`. -/
def oneWayRooms : List (String × MRoom) :=
  [("A", { noExitRoom with right := some "B" }), ("B", noExitRoom)]

/-- The map the builder produces for `oneWayRooms`. -/
def oneWayMap : MapData :=
  { origins := [("A", ⟨0, 0⟩), ("B", ⟨1, 0⟩)],
    room_map := [("A", ⟨0, [1]⟩), ("B", ⟨1, [0]⟩)] }

/-- A minimal well-formed world document: a player located in room A, rooms
`{A: {right: B}, B: {}}` (all other exits null), no items, no NPCs. -/
def d0World : Val :=
  .dict
    [("player", .dict [("position", .dict [("location", .str "A")])]),
     ("rooms", .dict
       [("A", .dict [("paths", .dict
          [("up", .null), ("down", .null), ("left", .null), ("right", .str "B")])]),
        ("B", .dict [("paths", .dict
          [("up", .null), ("down", .null), ("left", .null), ("right", .null)])])]),
     ("items", .dict []),
     ("npc", .dict [])]

/-- The game state `Game(d0World)` constructs. -/
def g0Game : Game :=
  { player := ⟨.dict [("location", .str "A")], .null, .null⟩,
    rooms :=
      [("A", ⟨.null, .null, .null,
        .dict [("up", .null), ("down", .null), ("left", .null), ("right", .str "B")]⟩),
       ("B", ⟨.null, .null, .null,
        .dict [("up", .null), ("down", .null), ("left", .null), ("right", .null)]⟩)],
    items := [],
    npc := [],
    room_map :=
      { origins := [("A", ⟨0, 0⟩), ("B", ⟨1, 0⟩)],
        room_map := [("A", ⟨0, [1]⟩), ("B", ⟨1, [0]⟩)] } }

/-! ## Verification predicates -/

/-- What each construction step of `_construct_minimap` preserves: assigned
origin keys persist, collected edges persist, the origin keys stay
duplicate-free, and every origin key stays a room key (a key of `nodes`). -/
def OriginsStep (nodes : List (String × Nat)) (o₀ o₁ : Origins) (e₀ e₁ : Edges) : Prop :=
  (∀ k, (getKV k o₀).isSome → (getKV k o₁).isSome) ∧
  (∀ e, e ∈ e₀ → e ∈ e₁) ∧
  ((o₀.map Prod.fst).Nodup → (o₁.map Prod.fst).Nodup) ∧
  ((∀ k, (getKV k o₀).isSome → (getKV k nodes).isSome) →
    ∀ k, (getKV k o₁).isSome → (getKV k nodes).isSome)

/-! ## Association-list lemmas -/

section KVLemmas

variable {κ : Type u} {α : Type v} [DecidableEq κ]

theorem getKV_setKV_self (m : List (κ × α)) (k : κ) (v : α) :
    getKV k (setKV m k v) = some v := by
  induction m with
  | nil => simp [setKV, getKV]
  | cons hd tl ih =>
    by_cases h : hd.1 = k
    · simp [setKV, getKV, h]
    · simpa [setKV, getKV, h] using ih

theorem getKV_setKV_ne (m : List (κ × α)) {k k' : κ} (v : α) (h : k' ≠ k) :
    getKV k' (setKV m k v) = getKV k' m := by
  have h' : k ≠ k' := Ne.symm h
  induction m with
  | nil => simp [setKV, getKV, h']
  | cons hd tl ih =>
    by_cases hk : hd.1 = k
    · simp [setKV, getKV, hk, h']
    · simp only [setKV, hk, if_false, getKV]
      by_cases hk' : hd.1 = k' <;> simp [hk', ih]

theorem isSome_getKV_setKV (m : List (κ × α)) (k k' : κ) (v : α) :
    (getKV k' (setKV m k v)).isSome ↔ k' = k ∨ (getKV k' m).isSome := by
  by_cases h : k' = k
  · subst h; simp [getKV_setKV_self]
  · simp [getKV_setKV_ne m v h, h]

theorem mem_vals_setKV {m : List (κ × α)} {k : κ} {v x : α}
    (h : x ∈ (setKV m k v).map Prod.snd) : x = v ∨ x ∈ m.map Prod.snd := by
  induction m with
  | nil => simpa [setKV] using h
  | cons hd tl ih =>
    by_cases hk : hd.1 = k
    · simp only [setKV, hk, if_true, List.map_cons, List.mem_cons] at h
      rcases h with h | h
      · exact .inl h
      · exact .inr (by simp [h])
    · simp only [setKV, hk, if_false, List.map_cons, List.mem_cons] at h
      rcases h with h | h
      · exact .inr (by simp [h])
      · rcases ih h with h | h
        · exact .inl h
        · exact .inr (by simp [h])

theorem mem_keys_setKV {m : List (κ × α)} {k x : κ} {v : α}
    (h : x ∈ (setKV m k v).map Prod.fst) : x = k ∨ x ∈ m.map Prod.fst := by
  induction m with
  | nil => simpa [setKV] using h
  | cons hd tl ih =>
    by_cases hk : hd.1 = k
    · simp only [setKV, hk, if_true, List.map_cons, List.mem_cons] at h
      rcases h with h | h
      · exact .inl h
      · exact .inr (by simp [h])
    · simp only [setKV, hk, if_false, List.map_cons, List.mem_cons] at h
      rcases h with h | h
      · exact .inr (by simp [h])
      · rcases ih h with h | h
        · exact .inl h
        · exact .inr (by simp [h])

theorem keys_nodup_setKV {m : List (κ × α)} {k : κ} {v : α}
    (h : (m.map Prod.fst).Nodup) : ((setKV m k v).map Prod.fst).Nodup := by
  induction m with
  | nil => simp [setKV]
  | cons hd tl ih =>
    simp only [List.map_cons, List.nodup_cons] at h
    by_cases hk : hd.1 = k
    · subst hk
      simpa [setKV, List.nodup_cons] using h
    · simp only [setKV, hk, if_false, List.map_cons, List.nodup_cons]
      refine ⟨fun hmem => ?_, ih h.2⟩
      rcases mem_keys_setKV hmem with h1 | h1
      · exact hk h1
      · exact h.1 h1

theorem getKV_eq_none_iff (m : List (κ × α)) (k : κ) :
    getKV k m = none ↔ k ∉ m.map Prod.fst := by
  induction m with
  | nil => simp [getKV]
  | cons hd tl ih =>
    by_cases h : hd.1 = k
    · simp [getKV, h]
    · rw [getKV, if_neg h, ih, List.map_cons, List.mem_cons]
      have h' : ¬k = hd.1 := fun he => h he.symm
      tauto

theorem setKV_eq_append {m : List (κ × α)} {k : κ} (v : α) (h : getKV k m = none) :
    setKV m k v = m ++ [(k, v)] := by
  induction m with
  | nil => simp [setKV]
  | cons hd tl ih =>
    simp only [getKV] at h
    by_cases hk : hd.1 = k
    · simp [hk] at h
    · simp only [setKV, hk, if_false, List.cons_append, List.cons.injEq, true_and]
      exact ih (by simpa [hk] using h)

theorem getKV_append_of_none {m₁ m₂ : List (κ × α)} {k : κ} (h : getKV k m₁ = none) :
    getKV k (m₁ ++ m₂) = getKV k m₂ := by
  induction m₁ with
  | nil => simp
  | cons hd tl ih =>
    simp only [getKV] at h ⊢
    by_cases hk : hd.1 = k
    · simp [hk] at h
    · simpa [hk] using ih (by simpa [hk] using h)

theorem getKV_mem {m : List (κ × α)} {k : κ} {v : α} (h : getKV k m = some v) :
    (k, v) ∈ m := by
  induction m with
  | nil => simp [getKV] at h
  | cons hd tl ih =>
    simp only [getKV] at h
    by_cases hk : hd.1 = k
    · simp only [hk, if_true, Option.some.injEq] at h
      have hhd : hd = (k, v) := by
        cases hd
        simp_all
      simp [hhd]
    · exact List.mem_cons.mpr (.inr (ih (by simpa [hk] using h)))

theorem mem_getKV_of_nodup {m : List (κ × α)} {k : κ} {v : α}
    (hnd : (m.map Prod.fst).Nodup) (h : (k, v) ∈ m) : getKV k m = some v := by
  induction m with
  | nil => simp at h
  | cons hd tl ih =>
    simp only [List.map_cons, List.nodup_cons] at hnd
    rcases List.mem_cons.mp h with h | h
    · simp [← h, getKV]
    · have hk : hd.1 ≠ k := by
        intro hk
        exact hnd.1 (hk ▸ (List.mem_map.mpr ⟨(k, v), h, rfl⟩))
      simp [getKV, hk, ih hnd.2 h]

theorem getKV_isSome_of_mem {m : List (κ × α)} {k : κ} {v : α} (h : (k, v) ∈ m) :
    (getKV k m).isSome := by
  induction m with
  | nil => simp at h
  | cons hd tl ih =>
    rcases List.mem_cons.mp h with h | h
    · simp [← h, getKV]
    · by_cases hk : hd.1 = k <;> simp [getKV, hk, ih h]

theorem getKV_map_entry {β : Type v} (m : List (κ × α)) (f : κ → α → β) (k : κ) :
    getKV k (m.map fun np => (np.1, f np.1 np.2)) = (getKV k m).map (f k) := by
  induction m with
  | nil => simp [getKV]
  | cons hd tl ih =>
    by_cases hk : hd.1 = k
    · subst hk; simp [getKV, ih]
    · simp [getKV, hk, ih]

end KVLemmas

/-! ## Minimum / normalization lemmas -/

theorem foldl_min_le_init (g : Point → Int) (l : Origins) (init : Int) :
    l.foldl (fun a q => min a (g q.2)) init ≤ init := by
  induction l generalizing init with
  | nil => simp
  | cons hd tl ih =>
    calc tl.foldl (fun a q => min a (g q.2)) (min init (g hd.2))
        ≤ min init (g hd.2) := ih _
      _ ≤ init := min_le_left _ _

theorem foldl_min_le_mem (g : Point → Int) {l : Origins} {np : String × Point}
    (h : np ∈ l) (init : Int) :
    l.foldl (fun a q => min a (g q.2)) init ≤ g np.2 := by
  induction l generalizing init with
  | nil => simp at h
  | cons hd tl ih =>
    rcases List.mem_cons.mp h with h | h
    · calc tl.foldl (fun a q => min a (g q.2)) (min init (g hd.2))
          ≤ min init (g hd.2) := foldl_min_le_init g tl _
        _ ≤ g hd.2 := min_le_right _ _
        _ = g np.2 := by rw [h]
    · exact ih h _

theorem minX_le {l : Origins} {np : String × Point} (h : np ∈ l) : minX l ≤ np.2.x := by
  cases l with
  | nil => simp at h
  | cons hd tl =>
    rcases List.mem_cons.mp h with h | h
    · simpa [minX, h] using foldl_min_le_init (·.x) tl np.2.x
    · exact foldl_min_le_mem (·.x) h _

theorem minY_le {l : Origins} {np : String × Point} (h : np ∈ l) : minY l ≤ np.2.y := by
  cases l with
  | nil => simp at h
  | cons hd tl =>
    rcases List.mem_cons.mp h with h | h
    · simpa [minY, h] using foldl_min_le_init (·.y) tl np.2.y
    · exact foldl_min_le_mem (·.y) h _

theorem normalizeOrigins_keys (l : Origins) :
    (normalizeOrigins l).map Prod.fst = l.map Prod.fst := by
  by_cases h1 : minX l < 0 <;> by_cases h2 : minY l < 0 <;>
    simp [normalizeOrigins, h1, h2]

/-- Every coordinate of a nonempty normalized origin set is non-negative. -/
theorem normalizeOrigins_nonneg {l : Origins} {np : String × Point}
    (h : np ∈ normalizeOrigins l) : 0 ≤ np.2.x ∧ 0 ≤ np.2.y := by
  unfold normalizeOrigins at h
  by_cases hdx : minX l < 0 <;> by_cases hdy : minY l < 0 <;>
    simp only [hdx, hdy, if_true, if_false] at h
  · obtain ⟨q1, hq1, hq1e⟩ := List.mem_map.mp h
    obtain ⟨q0, hq0, hq0e⟩ := List.mem_map.mp hq1
    subst hq1e; subst hq0e
    constructor
    · have := minX_le hq0
      simp only [abs_of_neg hdx]
      omega
    · have := minY_le hq0
      simp only [abs_of_neg hdy]
      omega
  · obtain ⟨q0, hq0, hq0e⟩ := List.mem_map.mp h
    subst hq0e
    constructor
    · have := minX_le hq0
      simp only [abs_of_neg hdx]
      omega
    · have := minY_le hq0
      simp only
      omega
  · obtain ⟨q0, hq0, hq0e⟩ := List.mem_map.mp h
    subst hq0e
    constructor
    · have := minX_le hq0
      simp only
      omega
    · have := minY_le hq0
      simp only [abs_of_neg hdy]
      omega
  · have hx := minX_le h
    have hy := minY_le h
    constructor <;> omega

/-! ## Provisional node-id lemmas -/

theorem getKV_mkNodesFrom_ge {ns : List String} {n : String} {i j : Nat}
    (h : getKV n (mkNodesFrom i ns) = some j) : i ≤ j := by
  induction ns generalizing i with
  | nil => simp [mkNodesFrom, getKV] at h
  | cons hd tl ih =>
    simp only [mkNodesFrom, getKV] at h
    by_cases he : hd = n
    · simp only [he, if_true, Option.some.injEq] at h
      omega
    · exact Nat.le_of_succ_le (ih (by simpa [he] using h))

theorem mkNodesFrom_inj {ns : List String} {n₁ n₂ : String} {i j : Nat}
    (h₁ : getKV n₁ (mkNodesFrom i ns) = some j)
    (h₂ : getKV n₂ (mkNodesFrom i ns) = some j) : n₁ = n₂ := by
  induction ns generalizing i with
  | nil => simp [mkNodesFrom, getKV] at h₁
  | cons hd tl ih =>
    simp only [mkNodesFrom, getKV] at h₁ h₂
    by_cases he₁ : hd = n₁ <;> by_cases he₂ : hd = n₂
    · exact he₁ ▸ he₂
    · simp only [he₁, if_true, Option.some.injEq] at h₁
      have := getKV_mkNodesFrom_ge (by simpa [he₂] using h₂)
      omega
    · simp only [he₂, if_true, Option.some.injEq] at h₂
      have := getKV_mkNodesFrom_ge (by simpa [he₁] using h₁)
      omega
    · exact ih (by simpa [he₁] using h₁) (by simpa [he₂] using h₂)

/-! ## networkx neighbor lemmas -/

theorem mem_nxAdd_self (ns : List Nat) (u : Nat) : u ∈ nxAdd ns u := by
  by_cases h : u ∈ ns <;> simp [nxAdd, h]

theorem mem_nxAdd_of_mem {ns : List Nat} {x : Nat} (u : Nat) (h : x ∈ ns) :
    x ∈ nxAdd ns u := by
  by_cases hu : u ∈ ns <;> simp [nxAdd, hu, h]

theorem mem_nxNeighborsAux_of_mem {es : Edges} {v x : Nat} {ns : List Nat}
    (h : x ∈ ns) : x ∈ nxNeighborsAux v es ns := by
  induction es generalizing ns with
  | nil => simpa [nxNeighborsAux] using h
  | cons e tl ih =>
    simp only [nxNeighborsAux]
    split
    · exact ih (mem_nxAdd_of_mem _ h)
    · split
      · exact ih (mem_nxAdd_of_mem _ h)
      · exact ih h

theorem mem_nxNeighborsAux_of_mem_edges {es : Edges} {v u : Nat} (ns : List Nat)
    (h : (v, u) ∈ es ∨ (u, v) ∈ es) : u ∈ nxNeighborsAux v es ns := by
  induction es generalizing ns with
  | nil => simp at h
  | cons e tl ih =>
    rcases h with h | h <;> rcases List.mem_cons.mp h with he | hmem
    · subst he
      have heq : nxNeighborsAux v ((v, u) :: tl) ns = nxNeighborsAux v tl (nxAdd ns u) := by
        simp [nxNeighborsAux]
      rw [heq]
      exact mem_nxNeighborsAux_of_mem (mem_nxAdd_self _ _)
    · exact ih _ (.inl hmem)
    · subst he
      by_cases huv : u = v
      · subst huv
        have heq : nxNeighborsAux u ((u, u) :: tl) ns = nxNeighborsAux u tl (nxAdd ns u) := by
          simp [nxNeighborsAux]
        rw [heq]
        exact mem_nxNeighborsAux_of_mem (mem_nxAdd_self _ _)
      · have heq : nxNeighborsAux v ((u, v) :: tl) ns = nxNeighborsAux v tl (nxAdd ns u) := by
          simp [nxNeighborsAux, huv]
        rw [heq]
        exact mem_nxNeighborsAux_of_mem (mem_nxAdd_self _ _)
    · exact ih _ (.inr hmem)

theorem mem_nxNeighbors_of_edge {es : Edges} {a b : Nat} (h : (a, b) ∈ es) :
    b ∈ nxNeighbors es a ∧ a ∈ nxNeighbors es b :=
  ⟨mem_nxNeighborsAux_of_mem_edges [] (.inl h),
   mem_nxNeighborsAux_of_mem_edges [] (.inr h)⟩

/-! ## `_adjust_minimap_origins` characterization -/

theorem ensureKV_isSome_self (o : Origins) (k : String) :
    (getKV k (ensureKV o k)).isSome := by
  unfold ensureKV
  split
  · assumption
  · simp [getKV_setKV_self]

theorem getKV_ensureKV_of_isSome {o : Origins} {k : String} (k0 : String)
    (h : (getKV k o).isSome) : getKV k (ensureKV o k0) = getKV k o := by
  unfold ensureKV
  split
  · rfl
  · next hc =>
    have hne : k ≠ k0 := by
      rintro rfl
      exact hc h
    exact getKV_setKV_ne o _ hne

theorem getKV_ensureKV_getD_self (o : Origins) (k : String) :
    (getKV k (ensureKV o k)).getD ⟨0, 0⟩ = (getKV k o).getD ⟨0, 0⟩ := by
  unfold ensureKV
  split
  · rfl
  · next hc =>
    rw [getKV_setKV_self]
    cases hk : getKV k o
    · rfl
    · exact absurd (by simp [hk]) hc

theorem getKV_ensureKV_isSome_iff (o : Origins) (k0 k : String) :
    (getKV k (ensureKV o k0)).isSome ↔ (getKV k o).isSome ∨ k = k0 := by
  unfold ensureKV
  split
  · next hc =>
    constructor
    · exact .inl
    · rintro (h | rfl)
      · exact h
      · exact hc
  · rw [isSome_getKV_setKV]
    tauto

theorem keys_nodup_ensureKV {o : Origins} {k : String}
    (h : (o.map Prod.fst).Nodup) : ((ensureKV o k).map Prod.fst).Nodup := by
  unfold ensureKV
  split
  · exact h
  · exact keys_nodup_setKV h

/-- Full characterization of a successful `_adjust_minimap_origins` call:
either the exit was null and nothing happened, or the destination's origin
has been overwritten with the source's origin (defaulted to (0,0) if the
source was unseen) displaced along the direction, the key set has grown by
exactly source and destination, both of which are room keys, and the
returned edge joins their provisional ids. -/
theorem adjust_ok_spec {room : MRoom} {d : Dir} {o : Origins} {name : String}
    {nodes : List (String × Nat)} {o' : Origins} {eo : Option (Nat × Nat)}
    (h : adjustMinimapOrigins room d o name nodes = .ok (o', eo)) :
    (room.paths d = none ∧ o' = o ∧ eo = none) ∨
    ∃ dest a b, room.paths d = some dest ∧
      getKV name nodes = some a ∧ getKV dest nodes = some b ∧ eo = some (a, b) ∧
      getKV dest o' = some (displace ((getKV name o).getD ⟨0, 0⟩) d) ∧
      (∀ k, (getKV k o').isSome ↔ (getKV k o).isSome ∨ k = name ∨ k = dest) ∧
      ((o.map Prod.fst).Nodup → (o'.map Prod.fst).Nodup) := by
  unfold adjustMinimapOrigins at h
  cases hp : room.paths d with
  | none =>
    rw [hp] at h
    simp only [Except.ok.injEq, Prod.mk.injEq] at h
    exact .inl ⟨rfl, h.1.symm, h.2.symm⟩
  | some dest =>
    simp only [hp] at h
    cases hn : getKV name nodes with
    | none =>
      simp only [hn] at h
      exact (Except.noConfusion h)
    | some a =>
      simp only [hn] at h
      cases hd2 : getKV dest nodes with
      | none =>
        simp only [hd2] at h
        exact (Except.noConfusion h)
      | some b =>
        simp only [hd2] at h
        simp only [Except.ok.injEq, Prod.mk.injEq] at h
        obtain ⟨ho', heo⟩ := h
        refine .inr ⟨dest, a, b, rfl, rfl, hd2, heo.symm, ?_, ?_, ?_⟩
        · rw [← ho']
          rw [getKV_setKV_self]
          have hsrc : (getKV name (ensureKV (ensureKV o name) dest)).getD ⟨0, 0⟩ =
              (getKV name o).getD ⟨0, 0⟩ := by
            rw [getKV_ensureKV_of_isSome dest (ensureKV_isSome_self o name),
              getKV_ensureKV_getD_self]
          rw [hsrc]
        · intro k
          rw [← ho', isSome_getKV_setKV, getKV_ensureKV_isSome_iff,
            getKV_ensureKV_isSome_iff]
          tauto
        · intro hnd
          rw [← ho']
          exact keys_nodup_setKV (keys_nodup_ensureKV (keys_nodup_ensureKV hnd))

/-! ## `_construct_minimap` fold lemmas -/

theorem OriginsStep.refl (nodes : List (String × Nat)) (o : Origins) (e : Edges) :
    OriginsStep nodes o o e e :=
  ⟨fun _ h => h, fun _ h => h, id, fun h => h⟩

theorem OriginsStep.trans {nodes : List (String × Nat)} {o₀ o₁ o₂ : Origins}
    {e₀ e₁ e₂ : Edges} (h₁ : OriginsStep nodes o₀ o₁ e₀ e₁)
    (h₂ : OriginsStep nodes o₁ o₂ e₁ e₂) : OriginsStep nodes o₀ o₂ e₀ e₂ :=
  ⟨fun k h => h₂.1 k (h₁.1 k h), fun e h => h₂.2.1 e (h₁.2.1 e h),
   fun h => h₂.2.2.1 (h₁.2.2.1 h), fun h => h₂.2.2.2 (h₁.2.2.2 h)⟩

theorem adjust_ok_step {room : MRoom} {d : Dir} {o : Origins} {name : String}
    {nodes : List (String × Nat)} {o' : Origins} {eo : Option (Nat × Nat)} (e₀ : Edges)
    (h : adjustMinimapOrigins room d o name nodes = .ok (o', eo)) :
    OriginsStep nodes o o' e₀ (e₀ ++ eo.toList) := by
  rcases adjust_ok_spec h with ⟨_, rfl, rfl⟩ | ⟨dest, a, b, hp, hn, hd2, rfl, hdesto, hkeys, hnd⟩
  · exact ⟨fun _ h => h, fun e he => by simpa using he, id, fun h => h⟩
  · refine ⟨?_, ?_, hnd, ?_⟩
    · intro k hk
      rw [hkeys k]
      exact .inl hk
    · intro e he
      exact List.mem_append_left _ he
    · intro hdom k hk
      rcases (hkeys k).mp hk with hk' | rfl | rfl
      · exact hdom k hk'
      · simp [hn]
      · simp [hd2]

theorem constructDirs_step {room : MRoom} {name : String} {nodes : List (String × Nat)} :
    ∀ {ds : List Dir} {acc acc' : Origins × Edges},
    constructDirs room name nodes ds acc = .ok acc' →
    OriginsStep nodes acc.1 acc'.1 acc.2 acc'.2 := by
  intro ds
  induction ds with
  | nil =>
    intro acc acc' h
    simp only [constructDirs, Except.ok.injEq] at h
    subst h
    exact OriginsStep.refl _ _ _
  | cons d ds ih =>
    intro acc acc' h
    simp only [constructDirs] at h
    cases ha : adjustMinimapOrigins room d acc.1 name nodes with
    | error e =>
      rw [ha] at h
      exact (Except.noConfusion h)
    | ok oe =>
      rw [ha] at h
      obtain ⟨o', eo⟩ := oe
      exact (adjust_ok_step acc.2 ha).trans (ih h)

theorem constructRooms_step {nodes : List (String × Nat)} :
    ∀ {rooms : List (String × MRoom)} {acc acc' : Origins × Edges},
    constructRooms nodes rooms acc = .ok acc' →
    OriginsStep nodes acc.1 acc'.1 acc.2 acc'.2 := by
  intro rooms
  induction rooms with
  | nil =>
    intro acc acc' h
    simp only [constructRooms, Except.ok.injEq] at h
    subst h
    exact OriginsStep.refl _ _ _
  | cons nr rest ih =>
    intro acc acc' h
    obtain ⟨n, r⟩ := nr
    simp only [constructRooms] at h
    cases hc : constructDirs r n nodes dirList acc with
    | error e =>
      rw [hc] at h
      exact (Except.noConfusion h)
    | ok acc₁ =>
      rw [hc] at h
      exact (constructDirs_step hc).trans (ih h)

theorem dir_mem_dirList (d : Dir) : d ∈ dirList := by
  cases d <;> simp [dirList]

theorem constructDirs_hit {room : MRoom} {name B : String}
    {nodes : List (String × Nat)} {d : Dir} :
    ∀ {ds : List Dir} {acc acc' : Origins × Edges},
    d ∈ ds → room.paths d = some B →
    constructDirs room name nodes ds acc = .ok acc' →
    ∃ a b, getKV name nodes = some a ∧ getKV B nodes = some b ∧
      (getKV name acc'.1).isSome ∧ (getKV B acc'.1).isSome ∧ (a, b) ∈ acc'.2 := by
  intro ds
  induction ds with
  | nil =>
    intro acc acc' hmem
    simp at hmem
  | cons d' ds ih =>
    intro acc acc' hmem hB h
    simp only [constructDirs] at h
    cases ha : adjustMinimapOrigins room d' acc.1 name nodes with
    | error e =>
      rw [ha] at h
      exact (Except.noConfusion h)
    | ok oe =>
      rw [ha] at h
      obtain ⟨o', eo⟩ := oe
      rcases List.mem_cons.mp hmem with rfl | hmem'
      · rcases adjust_ok_spec ha with ⟨hnone, _, _⟩ | ⟨dest, a, b, hp, hn, hd2, heo, _, hkeys, _⟩
        · rw [hB] at hnone
          exact (Option.noConfusion hnone)
        · have hdB : dest = B := by
            have hsd : some dest = some B := hp.symm.trans hB
            injection hsd
          rw [hdB] at hd2 hkeys
          have hstep := constructDirs_step h
          refine ⟨a, b, hn, hd2, ?_, ?_, ?_⟩
          · exact hstep.1 name ((hkeys name).mpr (.inr (.inl rfl)))
          · exact hstep.1 B ((hkeys B).mpr (.inr (.inr rfl)))
          · refine hstep.2.1 _ ?_
            rw [heo]
            exact List.mem_append_right _ (by simp)
      · exact ih hmem' hB h

theorem constructRooms_hit {nodes : List (String × Nat)} {A B : String}
    {rA : MRoom} {d : Dir} :
    ∀ {rooms : List (String × MRoom)} {acc acc' : Origins × Edges},
    (A, rA) ∈ rooms → rA.paths d = some B →
    constructRooms nodes rooms acc = .ok acc' →
    ∃ a b, getKV A nodes = some a ∧ getKV B nodes = some b ∧
      (getKV A acc'.1).isSome ∧ (getKV B acc'.1).isSome ∧ (a, b) ∈ acc'.2 := by
  intro rooms
  induction rooms with
  | nil =>
    intro acc acc' hmem
    simp at hmem
  | cons nr rest ih =>
    intro acc acc' hmem hB h
    obtain ⟨n, r⟩ := nr
    simp only [constructRooms] at h
    cases hc : constructDirs r n nodes dirList acc with
    | error e =>
      rw [hc] at h
      exact (Except.noConfusion h)
    | ok acc₁ =>
      rw [hc] at h
      rcases List.mem_cons.mp hmem with he | hmem'
      · obtain ⟨rfl, rfl⟩ : n = A ∧ r = rA := by
          constructor <;> { injection he with h1 h2; first | exact h1.symm | exact h2.symm }
        obtain ⟨a, b, hn, hbn, hA1, hB1, he1⟩ :=
          constructDirs_hit (dir_mem_dirList d) hB hc
        have hstep := constructRooms_step h
        exact ⟨a, b, hn, hbn, hstep.1 _ hA1, hstep.1 _ hB1, hstep.2.1 _ he1⟩
      · exact ih hmem' hB h

/-- Global invariants of a successful `_construct_minimap` run: the origin
keys are duplicate-free, and each is a room key. -/
theorem constructMinimap_inv {nodes : List (String × Nat)}
    {rooms : List (String × MRoom)} {origins : Origins} {edges : Edges}
    (h : constructMinimap nodes rooms = .ok (origins, edges)) :
    (origins.map Prod.fst).Nodup ∧
      ∀ k, (getKV k origins).isSome → (getKV k nodes).isSome := by
  have hs := constructRooms_step h
  refine ⟨hs.2.2.1 (by simp), hs.2.2.2 ?_⟩
  intro k hk
  simp [getKV] at hk

/-- A room whose four exits are all null contributes nothing. -/
theorem constructDirs_nulls {room : MRoom} {name : String}
    {nodes : List (String × Nat)} (hnull : ∀ d, room.paths d = none) :
    ∀ (ds : List Dir) (acc : Origins × Edges),
    constructDirs room name nodes ds acc = .ok acc := by
  intro ds
  induction ds with
  | nil => intro acc; simp [constructDirs]
  | cons d ds ih =>
    intro acc
    simp only [constructDirs, adjustMinimapOrigins, hnull d]
    simpa using ih acc

/-- If no room has any non-null directional exit, `_construct_minimap`
produces no origins and no edges. -/
theorem constructRooms_nulls {nodes : List (String × Nat)} :
    ∀ {rooms : List (String × MRoom)},
    (∀ nr ∈ rooms, ∀ d, (nr.2 : MRoom).paths d = none) →
    ∀ acc, constructRooms nodes rooms acc = .ok acc := by
  intro rooms
  induction rooms with
  | nil => intro _ acc; simp [constructRooms]
  | cons nr rest ih =>
    intro hnull acc
    obtain ⟨n, r⟩ := nr
    simp only [constructRooms]
    rw [constructDirs_nulls (fun d => hnull (n, r) (List.mem_cons_self _ _) d) dirList acc]
    exact ih (fun nr hmem d => hnull nr (List.mem_cons_of_mem _ hmem) d) acc

/-! ## Final node-id table and `room_map` lemmas -/

theorem foldl_setKV_getKV_notin {κ' : Type} {β γ : Type} [DecidableEq κ']
    (key : γ → κ') (valf : γ → β) :
    ∀ (l : List γ) (acc : List (κ' × β)) (k : κ'), k ∉ l.map key →
    getKV k (l.foldl (fun a g => setKV a (key g) (valf g)) acc) = getKV k acc := by
  intro l
  induction l with
  | nil => intro acc k _; rfl
  | cons g tl ih =>
    intro acc k hk
    simp only [List.map_cons, List.mem_cons, not_or] at hk
    simp only [List.foldl_cons]
    rw [ih _ _ hk.2, getKV_setKV_ne _ _ hk.1]

theorem foldl_setKV_getKV {κ' : Type} {β γ : Type} [DecidableEq κ']
    (key : γ → κ') (valf : γ → β) :
    ∀ (l : List γ) (acc : List (κ' × β)), (l.map key).Nodup →
    (∀ x ∈ l, getKV (key x) acc = none) →
    ∀ x ∈ l, getKV (key x) (l.foldl (fun a g => setKV a (key g) (valf g)) acc) =
      some (valf x) := by
  intro l
  induction l with
  | nil => intro acc _ _ x hx; simp at hx
  | cons g tl ih =>
    intro acc hnd hacc x hx
    simp only [List.map_cons, List.nodup_cons] at hnd
    simp only [List.foldl_cons]
    rcases List.mem_cons.mp hx with rfl | hx'
    · rw [foldl_setKV_getKV_notin key valf tl _ _ hnd.1, getKV_setKV_self]
    · refine ih _ hnd.2 ?_ x hx'
      intro y hy
      have hne : key y ≠ key g := by
        intro he
        exact hnd.1 (he ▸ List.mem_map.mpr ⟨y, hy, rfl⟩)
      rw [getKV_setKV_ne _ _ hne]
      exact hacc y (List.mem_cons_of_mem _ hy)

/-- With duplicate-free origin names that are all room keys, the final-id
keys (the provisional ids) are pairwise distinct. -/
theorem finalKeys_nodup {nodes : List (String × Nat)} {origins : Origins}
    (hinj : ∀ n₁ n₂ j, getKV n₁ nodes = some j → getKV n₂ nodes = some j → n₁ = n₂)
    (hdom : ∀ k, (getKV k origins).isSome → (getKV k nodes).isSome)
    (hnd : (origins.map Prod.fst).Nodup) :
    (origins.map (fun np => (getKV np.1 nodes).getD 0)).Nodup := by
  have hcomp : origins.map (fun np => (getKV np.1 nodes).getD 0) =
      (origins.map Prod.fst).map (fun n => (getKV n nodes).getD 0) := by
    simp [List.map_map]
  rw [hcomp]
  refine List.Nodup.map_on ?_ hnd
  intro x hx y hy hxy
  obtain ⟨⟨x', px⟩, hxmem, hxe⟩ := List.mem_map.mp hx
  obtain ⟨⟨y', py⟩, hymem, hye⟩ := List.mem_map.mp hy
  subst hxe; subst hye
  obtain ⟨ix, hix⟩ := Option.isSome_iff_exists.mp (hdom _ (getKV_isSome_of_mem hxmem))
  obtain ⟨iy, hiy⟩ := Option.isSome_iff_exists.mp (hdom _ (getKV_isSome_of_mem hymem))
  rw [hix, hiy] at hxy
  simp only [Option.getD_some] at hxy
  exact hinj _ _ _ hix (hxy ▸ hiy)

theorem getKV_finalIdsOf {nodes : List (String × Nat)} {origins : Origins}
    (hknd : (origins.map (fun np => (getKV np.1 nodes).getD 0)).Nodup)
    {n : String} {p : Point} (hmem : (n, p) ∈ origins) :
    getKV ((getKV n nodes).getD 0) (finalIdsOf nodes origins) =
      some (p.x + p.y * (maxX origins + 1)) := by
  have := foldl_setKV_getKV (fun np => (getKV np.1 nodes).getD 0)
    (fun np => np.2.x + np.2.y * (maxX origins + 1)) origins [] hknd
    (fun x _ => rfl) (n, p) hmem
  exact this

theorem getKV_map_pair {β : Type} (F : String × Point → β) :
    ∀ {l : Origins} {n : String} {p : Point}, (l.map Prod.fst).Nodup → (n, p) ∈ l →
    getKV n (l.map fun np => (np.1, F np)) = some (F (n, p)) := by
  intro l
  induction l with
  | nil =>
    intro n p _ hmem
    simp at hmem
  | cons hd tl ih =>
    intro n p hnd hmem
    simp only [List.map_cons, List.nodup_cons] at hnd
    rcases List.mem_cons.mp hmem with he | hmem'
    · rw [← he]
      simp [getKV]
    · have hne : hd.1 ≠ n := by
        intro hh
        exact hnd.1 (hh ▸ List.mem_map.mpr ⟨(n, p), hmem', rfl⟩)
      simp only [List.map_cons, getKV, hne, if_false]
      exact ih hnd.2 hmem'

theorem getKV_buildRoomMap {nodes : List (String × Nat)} {edges : Edges}
    {origins : Origins} (hnd : (origins.map Prod.fst).Nodup)
    {n : String} {p : Point} (hmem : (n, p) ∈ origins) :
    getKV n (buildRoomMap nodes edges origins) =
      some { node_id := p.x + p.y * (maxX origins + 1),
             edges := (nxNeighbors edges ((getKV n nodes).getD 0)).map
               (fun u => (getKV u (finalIdsOf nodes origins)).getD 0) } := by
  exact getKV_map_pair
    (fun np =>
      RoomInfo.mk (np.2.x + np.2.y * (maxX origins + 1))
        ((nxNeighbors edges ((getKV np.1 nodes).getD 0)).map
          (fun u => (getKV u (finalIdsOf nodes origins)).getD 0)))
    hnd hmem

/-- Unpacking a successful `Map.__init__` run. -/
theorem mkMap_ok_elim {rooms : List (String × MRoom)} {m : MapData}
    (h : mkMap rooms = .ok m) :
    ∃ origins edges, constructMinimap (mkNodes rooms) rooms = .ok (origins, edges) ∧
      origins ≠ [] ∧ m.origins = normalizeOrigins origins ∧
      m.room_map = buildRoomMap (mkNodes rooms) edges (normalizeOrigins origins) := by
  unfold mkMap at h
  cases hc : constructMinimap (mkNodes rooms) rooms with
  | error e =>
    simp only [hc] at h
    exact (Except.noConfusion h)
  | ok oe =>
    obtain ⟨origins, edges⟩ := oe
    simp only [hc] at h
    by_cases he : origins.isEmpty
    · rw [if_pos he] at h
      exact (Except.noConfusion h)
    · rw [if_neg he] at h
      simp only [Except.ok.injEq] at h
      refine ⟨origins, edges, rfl, ?_, ?_, ?_⟩
      · intro hnil
        exact he (by simp [hnil])
      · rw [← h]
      · rw [← h]

/-- The keys of `m.origins` are duplicate-free for any successfully built
map, and every origin key resolves in the provisional-id dictionary. -/
theorem mkMap_origins_nodup {rooms : List (String × MRoom)} {m : MapData}
    (h : mkMap rooms = .ok m) :
    (m.origins.map Prod.fst).Nodup ∧
      ∀ k, (getKV k m.origins).isSome → (getKV k (mkNodes rooms)).isSome := by
  obtain ⟨origins, edges, hc, _, hno, _⟩ := mkMap_ok_elim h
  obtain ⟨hnd, hdom⟩ := constructMinimap_inv hc
  constructor
  · rw [hno, normalizeOrigins_keys]
    exact hnd
  · intro k hk
    refine hdom k ?_
    rw [hno] at hk
    have hmem : k ∈ (normalizeOrigins origins).map Prod.fst := by
      rcases Option.isSome_iff_exists.mp hk with ⟨v, hv⟩
      exact List.mem_map.mpr ⟨(k, v), getKV_mem hv, rfl⟩
    rw [normalizeOrigins_keys] at hmem
    rcases List.mem_map.mp hmem with ⟨⟨k', v⟩, hmem', he⟩
    have he' : k' = k := he
    subst he'
    exact getKV_isSome_of_mem hmem'

theorem getKV_isSome_iff_mem_keys {κ : Type u} {α : Type v} [DecidableEq κ]
    (m : List (κ × α)) (k : κ) : (getKV k m).isSome ↔ k ∈ m.map Prod.fst := by
  rw [Option.isSome_iff_ne_none]
  constructor
  · intro hne
    by_contra hmem
    exact hne ((getKV_eq_none_iff m k).mpr hmem)
  · intro hmem hnone
    exact ((getKV_eq_none_iff m k).mp hnone) hmem

theorem le_foldl_min (g : Point → Int) {l : Origins} {init c : Int}
    (hinit : c ≤ init) (hall : ∀ q ∈ l, c ≤ g q.2) :
    c ≤ l.foldl (fun a q => min a (g q.2)) init := by
  induction l generalizing init with
  | nil => simpa using hinit
  | cons hd tl ih =>
    simp only [List.foldl_cons]
    exact ih (le_min hinit (hall hd (List.mem_cons_self _ _)))
      (fun q hq => hall q (List.mem_cons_of_mem _ hq))

/-! ## Renderer highlight lemmas -/

theorem vals_setKV_nodup_extra {κ : Type u} {α : Type v} [DecidableEq κ]
    {m : List (κ × α)} {k : κ} {v : α} {extra : List α}
    (h : (m.map Prod.snd ++ v :: extra).Nodup) :
    ((setKV m k v).map Prod.snd ++ extra).Nodup := by
  induction m with
  | nil => simpa [setKV] using h
  | cons hd tl ih =>
    simp only [List.map_cons, List.cons_append, List.nodup_cons] at h
    by_cases hk : hd.1 = k
    · simp only [setKV, hk, if_true, List.map_cons, List.cons_append, List.nodup_cons]
      have := (List.nodup_middle).mp h.2
      simp only [List.nodup_cons] at this
      exact this
    · simp only [setKV, hk, if_false, List.map_cons, List.cons_append, List.nodup_cons]
      refine ⟨fun hmem => ?_, ih h.2⟩
      rcases List.mem_append.mp hmem with hmem' | hmem'
      · rcases mem_vals_setKV hmem' with he | he
        · exact h.1 (he ▸ List.mem_append_right _ (List.mem_cons_self _ _))
        · exact h.1 (List.mem_append_left _ he)
      · exact h.1 (List.mem_append_right _ (List.mem_cons_of_mem _ hmem'))

theorem labels_fold_nodup :
    ∀ (rm : List (String × RoomInfo)) (acc : List (Int × String)),
    (acc.map Prod.snd ++ rm.map Prod.fst).Nodup →
    ((rm.foldl (fun acc nr => setKV acc nr.2.node_id nr.1) acc).map Prod.snd).Nodup := by
  intro rm
  induction rm with
  | nil =>
    intro acc h
    simpa using h
  | cons nr rest ih =>
    intro acc h
    simp only [List.foldl_cons]
    refine ih _ ?_
    exact vals_setKV_nodup_extra (by simpa using h)

theorem minimapLabels_nodup {rm : List (String × RoomInfo)}
    (h : (rm.map Prod.fst).Nodup) : (minimapLabels rm).Nodup :=
  labels_fold_nodup rm [] (by simpa using h)

theorem listIndex_eq_none_iff {loc : String} {l : List String} :
    listIndex loc l = none ↔ loc ∉ l := by
  induction l with
  | nil => simp [listIndex]
  | cons v rest ih =>
    by_cases hv : v = loc
    · simp [listIndex, hv]
    · have hlv : ¬loc = v := fun h => hv h.symm
      simp [listIndex, hv, ih, hlv]

theorem listIndex_mem {loc : String} {l : List String} {i : Nat}
    (h : listIndex loc l = some i) : loc ∈ l := by
  by_contra hmem
  rw [listIndex_eq_none_iff.mpr hmem] at h
  exact (Option.noConfusion h)

theorem map_blue_of_not_mem {loc : String} {l : List String}
    (h : ∀ x ∈ l, x ≠ loc) :
    l.map (fun v => if v = loc then "red" else "blue") =
      List.replicate l.length "blue" := by
  induction l with
  | nil => simp
  | cons v rest ih =>
    simp only [List.map_cons, List.length_cons, List.replicate_succ,
      h v (List.mem_cons_self _ _), if_false]
    rw [ih (fun x hx => h x (List.mem_cons_of_mem _ hx))]

theorem replicate_set_eq_map {loc : String} :
    ∀ {l : List String} {i : Nat}, l.Nodup → listIndex loc l = some i →
    (List.replicate l.length "blue").set i "red" =
      l.map (fun v => if v = loc then "red" else "blue") := by
  intro l
  induction l with
  | nil =>
    intro i _ hfind
    simp [listIndex] at hfind
  | cons v rest ih =>
    intro i hnd hfind
    simp only [List.nodup_cons] at hnd
    by_cases hv : v = loc
    · simp only [listIndex, hv, if_true, Option.some.injEq] at hfind
      subst hfind
      have hred : (List.replicate (v :: rest).length "blue").set 0 "red" =
          "red" :: List.replicate rest.length "blue" := rfl
      rw [hred, List.map_cons, if_pos hv, map_blue_of_not_mem]
      intro x hx he
      refine absurd ?_ hnd.1
      rw [hv, ← he]
      exact hx
    · simp only [listIndex, hv, if_false] at hfind
      cases hj : listIndex loc rest with
      | none =>
        rw [hj] at hfind
        exact (Option.noConfusion hfind)
      | some j =>
        rw [hj] at hfind
        have hfind' : some (j + 1) = some i := hfind
        have hij : j + 1 = i := by injection hfind'
        subst hij
        have hblue : (List.replicate (v :: rest).length "blue").set (j + 1) "red" =
            "blue" :: (List.replicate rest.length "blue").set j "red" := rfl
        rw [hblue, List.map_cons, if_neg hv, ih hnd.2 hj]

theorem count_red_one {loc : String} :
    ∀ {l : List String}, l.Nodup → loc ∈ l →
    (l.map (fun v => if v = loc then "red" else "blue")).count "red" = 1 := by
  intro l
  induction l with
  | nil =>
    intro _ hmem
    simp at hmem
  | cons v rest ih =>
    intro hnd hmem
    simp only [List.nodup_cons] at hnd
    by_cases hv : v = loc
    · simp only [List.map_cons, hv, if_true]
      rw [List.count_cons_self]
      have hz : (rest.map (fun v => if v = loc then "red" else "blue")).count "red" = 0 := by
        rw [List.count_eq_zero]
        intro hmem'
        rcases List.mem_map.mp hmem' with ⟨x, hx, hxe⟩
        by_cases hxl : x = loc
        · refine absurd ?_ hnd.1
          rw [hv, ← hxl]
          exact hx
        · rw [if_neg hxl] at hxe
          exact absurd hxe (by decide)
      rw [hz]
    · simp only [List.map_cons, hv, if_false]
      rw [List.count_cons_of_ne (by decide)]
      rcases List.mem_cons.mp hmem with he | hmem'
      · exact absurd he.symm hv
      · exact ih hnd.2 hmem'

/-! ## Save / load round-trip lemmas -/

theorem loadPlayer_save (p : Player) : loadPlayer (Player.save p) = some p := rfl

theorem loadRoom_save (r : Room) : loadRoom (Room.save r) = some r := rfl

theorem loadItem_save (i : Item) : loadItem (Item.save i) = some i := rfl

theorem loadNonplayer_save (n : Nonplayer) : loadNonplayer (Nonplayer.save n) = some n := rfl

theorem loadEach_map_save {α : Type} (load : Val → Option α) (saveF : α → Val)
    (hrt : ∀ x, load (saveF x) = some x) :
    ∀ l : List (String × α), loadEach load (l.map fun nr => (nr.1, saveF nr.2)) = some l := by
  intro l
  induction l with
  | nil => rfl
  | cons nr rest ih =>
    obtain ⟨n, a⟩ := nr
    simp only [List.map_cons, loadEach, hrt a, ih, Option.some_bind]

theorem finishLoad_fields {p : Player} {r : List (String × Room)}
    {i : List (String × Item)} {n : List (String × Nonplayer)} {g : Game}
    (h : finishLoad p r i n = some g) :
    g.player = p ∧ g.rooms = r ∧ g.items = i ∧ g.npc = n := by
  simp only [finishLoad, Option.bind_eq_some] at h
  obtain ⟨mrooms, hmr, m, hm, posd, hposd, locv, hlocv, loc, hloc, cm, hcm, hpure⟩ := h
  have hpure' : some (Game.mk p r i n m) = some g := hpure
  have hg : Game.mk p r i n m = g := by injection hpure'
  rw [← hg]
  exact ⟨rfl, rfl, rfl, rfl⟩

/-- Reloading a saved game reproduces the game state exactly: the four
entity groups reload to identical records, and the minimap is rebuilt
deterministically from the same rooms. -/
theorem loadGame_save {D : Val} {g : Game} (h : loadGame D = some g) :
    loadGame (Game.save g) = some g := by
  simp only [loadGame, Option.bind_eq_some] at h
  obtain ⟨dd, hdd, pv, hpv, player, hplayer, rd, hrd, rooms, hrooms, itd, hitd,
    items, hitems, npd, hnpd, npc, hnpc, hfin⟩ := h
  obtain ⟨hgp, hgr, hgi, hgn⟩ := finishLoad_fields hfin
  have hstep : loadGame (Game.save g) =
      ((loadPlayer (Player.save g.player)).bind fun player =>
       (loadEach loadRoom (g.rooms.map fun nr => (nr.1, Room.save nr.2))).bind fun rooms =>
       (loadEach loadItem (g.items.map fun nr => (nr.1, Item.save nr.2))).bind fun items =>
       (loadEach loadNonplayer (g.npc.map fun nr => (nr.1, Nonplayer.save nr.2))).bind
         fun npc =>
       finishLoad player rooms items npc) := rfl
  rw [hstep, loadPlayer_save, loadEach_map_save loadRoom Room.save loadRoom_save,
    loadEach_map_save loadItem Item.save loadItem_save,
    loadEach_map_save loadNonplayer Nonplayer.save loadNonplayer_save]
  simp only [Option.some_bind]
  rw [hgp, hgr, hgi, hgn]
  exact hfin

/-! ## Validator lemmas -/

theorem pathCheck_directions_length
    {rooms : List (String × List (String × Option String))} {name : String}
    (h : (getKV name rooms).isSome) :
    (DIRECTIONS.filterMap (pathCheck rooms name)).length = 4 := by
  obtain ⟨room, hroom⟩ := Option.isSome_iff_exists.mp h
  simp [DIRECTIONS, List.filterMap_cons, pathCheck, hroom]

theorem checkRooms_length (rooms : List (String × List (String × Option String))) :
    (checkRooms rooms).length = 4 * rooms.length := by
  unfold checkRooms
  have hgen : ∀ l : List (String × List (String × Option String)),
      (∀ nr ∈ l, (getKV nr.1 rooms).isSome) →
      (l.flatMap fun nr => DIRECTIONS.filterMap (pathCheck rooms nr.1)).length =
        4 * l.length := by
    intro l
    induction l with
    | nil => intro _; rfl
    | cons nr rest ih =>
      intro hall
      rw [List.flatMap_cons, List.length_append,
        pathCheck_directions_length (hall nr (List.mem_cons_self _ _)),
        ih (fun nr' hnr' => hall nr' (List.mem_cons_of_mem _ hnr'))]
      simp only [List.length_cons]
      omega
  refine hgen rooms ?_
  intro nr hnr
  exact getKV_isSome_of_mem (by simpa using hnr)

/-! # Claim theorems -/

/-- C1, claim as stated, refuted: the claim says that once a room has an
assigned origin, processing a later directional edge into it does not change
its origin.  Concretely, with B already positioned at (0,1), processing the
edge A→right→B (A at (0,0)) moves B's origin to (1,0). -/
theorem c1_counterexample :
    adjustMinimapOrigins { noExitRoom with right := some "B" } .right
        [("A", ⟨0, 0⟩), ("B", ⟨0, 1⟩)] "A" [("A", 0), ("B", 1)] =
      .ok ([("A", ⟨0, 0⟩), ("B", ⟨1, 0⟩)], some (0, 1)) ∧
    getKV "B" [("A", (⟨0, 0⟩ : Point)), ("B", ⟨0, 1⟩)] = some ⟨0, 1⟩ ∧
    ((⟨1, 0⟩ : Point) ≠ ⟨0, 1⟩) :=
  ⟨rfl, rfl, by decide⟩

/-- C1 (amended): a later directional edge into an already-positioned room
OVERWRITES that room's origin — after `_adjust_minimap_origins` processes a
non-null exit, the destination's origin is unconditionally the source's
origin (defaulting to (0,0) if the source was unseen) displaced one unit
along the direction: last assignment wins, conflicting paths are not
reconciled. -/
theorem c1_overwrite {room : MRoom} {d : Dir} {o : Origins} {name dest : String}
    {nodes : List (String × Nat)} {o' : Origins} {eo : Option (Nat × Nat)}
    (hp : room.paths d = some dest)
    (h : adjustMinimapOrigins room d o name nodes = .ok (o', eo)) :
    getKV dest o' = some (displace ((getKV name o).getD ⟨0, 0⟩) d) := by
  rcases adjust_ok_spec h with ⟨hnone, _, _⟩ | ⟨dest', a, b, hp', _, _, _, hdest, _, _⟩
  · rw [hp] at hnone
    exact (Option.noConfusion hnone)
  · have hdd : dest' = dest := by
      have : some dest' = some dest := hp'.symm.trans hp
      injection this
    exact hdd ▸ hdest

theorem c1_witness :
    getKV "B" [("A", (⟨0, 0⟩ : Point)), ("B", ⟨1, 0⟩)] =
      some (displace ((getKV "A" [("A", (⟨0, 0⟩ : Point)), ("B", ⟨0, 1⟩)]).getD ⟨0, 0⟩)
        .right) :=
  @c1_overwrite { noExitRoom with right := some "B" } .right
    [("A", ⟨0, 0⟩), ("B", ⟨0, 1⟩)] "A" "B" [("A", 0), ("B", 1)]
    [("A", ⟨0, 0⟩), ("B", ⟨1, 0⟩)] (some (0, 1)) rfl rfl

/-- C2, claim as stated, refuted: the claim says the minimum x and y over
the normalized origins are 0.  For `{A: {right: B}, B: {right: A}}` the raw
origins end at A=(2,0), B=(1,0); since `dx = 1` is not negative, no shift is
applied and the minimum x stays 1, not 0. -/
theorem c2_counterexample :
    (mkMap rightCycleRooms).map (fun m => (minX m.origins, minY m.origins)) =
      .ok (1, 0) ∧ (1 : Int) ≠ 0 :=
  ⟨rfl, by decide⟩

/-- C2 (amended): after normalization the minimum x and minimum y over all
assigned origins are non-negative (so every assigned coordinate is
non-negative); they need not equal 0, because the shift is applied only when
the raw minimum is negative. -/
theorem c2_nonneg {rooms : List (String × MRoom)} {m : MapData}
    (h : mkMap rooms = .ok m) :
    (0 ≤ minX m.origins ∧ 0 ≤ minY m.origins) ∧
    ∀ np ∈ m.origins, 0 ≤ (np.2 : Point).x ∧ 0 ≤ np.2.y := by
  obtain ⟨origins, edges, hc, hne, hno, hrm⟩ := mkMap_ok_elim h
  have hall : ∀ np ∈ m.origins, 0 ≤ (np.2 : Point).x ∧ 0 ≤ np.2.y := by
    intro np hnp
    rw [hno] at hnp
    exact normalizeOrigins_nonneg hnp
  refine ⟨⟨?_, ?_⟩, hall⟩
  · cases hm : m.origins with
    | nil => simp [minX]
    | cons hd tl =>
      have hhd := hall hd (hm ▸ List.mem_cons_self _ _)
      exact le_foldl_min (·.x) hhd.1
        (fun q hq => (hall q (hm ▸ List.mem_cons_of_mem _ hq)).1)
  · cases hm : m.origins with
    | nil => simp [minY]
    | cons hd tl =>
      have hhd := hall hd (hm ▸ List.mem_cons_self _ _)
      exact le_foldl_min (·.y) hhd.2
        (fun q hq => (hall q (hm ▸ List.mem_cons_of_mem _ hq)).2)

theorem c2_witness :
    mkMap upDownRooms = .ok upDownMap ∧
    ((0 ≤ minX upDownMap.origins ∧ 0 ≤ minY upDownMap.origins) ∧
      ∀ np ∈ upDownMap.origins, 0 ≤ (np.2 : Point).x ∧ 0 ≤ np.2.y) :=
  ⟨rfl, @c2_nonneg upDownRooms upDownMap rfl⟩

/-- C5, claim as stated, refuted: the claim says a self-referential exit
produces no edge.  For `{A: {right: A}}` the builder collects the self-loop
edge (0,0) between A's provisional id and itself (and A even ends up listed
as its own rendering neighbor). -/
theorem c5_counterexample :
    constructMinimap (mkNodes selfLoopRooms) selfLoopRooms =
      .ok ([("A", ⟨1, 0⟩)], [(0, 0)]) ∧
    mkMap selfLoopRooms =
      .ok { origins := [("A", ⟨1, 0⟩)], room_map := [("A", ⟨1, [1]⟩)] } ∧
    (([(0, 0)] : Edges) ≠ []) :=
  ⟨rfl, rfl, by decide⟩

/-- C5 (amended): a null directional exit produces no edge and leaves the
origins untouched, but a self-referential exit DOES produce an edge — a
self-loop joining the room's provisional id to itself. -/
theorem c5_edges {room : MRoom} {d : Dir} {o : Origins} {name : String}
    {nodes : List (String × Nat)} {o' : Origins} {eo : Option (Nat × Nat)}
    (h : adjustMinimapOrigins room d o name nodes = .ok (o', eo)) :
    (room.paths d = none → o' = o ∧ eo = none) ∧
    (room.paths d = some name → ∀ a, getKV name nodes = some a → eo = some (a, a)) := by
  rcases adjust_ok_spec h with ⟨hn, ho, he⟩ | ⟨dest, a, b, hp, hn, hd2, heo, _, _, _⟩
  · refine ⟨fun _ => ⟨ho, he⟩, fun hs => ?_⟩
    rw [hn] at hs
    exact (Option.noConfusion hs)
  · constructor
    · intro hnone
      rw [hp] at hnone
      exact (Option.noConfusion hnone)
    · intro hs a' ha'
      have hds : dest = name := by
        have : some dest = some name := hp.symm.trans hs
        injection this
      subst hds
      have hab : a = b := by
        have : some a = some b := hn.symm.trans hd2
        injection this
      have haa' : a' = a := by
        have : some a' = some a := ha'.symm.trans hn
        injection this
      rw [heo, haa', hab]

theorem c5_witness :
    ((({ noExitRoom with right := some "A" } : MRoom).paths .up = none →
        ([("A", (⟨0, 0⟩ : Point))] : Origins) = [("A", ⟨0, 0⟩)] ∧
          (none : Option (Nat × Nat)) = none) ∧
      (({ noExitRoom with right := some "A" } : MRoom).paths .up = some "A" →
        ∀ a, getKV "A" [("A", 0)] = some a → (none : Option (Nat × Nat)) = some (a, a))) ∧
    ((({ noExitRoom with right := some "A" } : MRoom).paths .right = none →
        ([("A", (⟨1, 0⟩ : Point))] : Origins) = [] ∧
          (some ((0, 0) : Nat × Nat)) = none) ∧
      (({ noExitRoom with right := some "A" } : MRoom).paths .right = some "A" →
        ∀ a, getKV "A" [("A", 0)] = some a → (some ((0, 0) : Nat × Nat)) = some (a, a))) :=
  ⟨@c5_edges { noExitRoom with right := some "A" } .up [("A", ⟨0, 0⟩)] "A"
      [("A", 0)] [("A", ⟨0, 0⟩)] none rfl,
   @c5_edges { noExitRoom with right := some "A" } .right [] "A"
      [("A", 0)] [("A", ⟨1, 0⟩)] (some (0, 0)) rfl⟩

/-- C6: if `_construct_minimap` succeeds, `Map.__init__` fails (with the
modelled ValueError of the `min` reduction over the empty origin collection)
exactly when no room produced an origin; when at least one origin exists the
reductions succeed and construction completes.  If no room has any non-null
directional exit, no origin is produced. -/
theorem c6_empty_fails {rooms : List (String × MRoom)} {origins : Origins}
    {edges : Edges}
    (h : constructMinimap (mkNodes rooms) rooms = .ok (origins, edges)) :
    (origins = [] ↔ mkMap rooms = .error .emptyOrigins) ∧
    (origins ≠ [] → (mkMap rooms).isOk = true) ∧
    ((∀ nr ∈ rooms, ∀ d, (nr.2 : MRoom).paths d = none) → origins = []) := by
  have hmk : mkMap rooms =
      (if origins.isEmpty then .error .emptyOrigins
       else .ok { origins := normalizeOrigins origins,
                  room_map := buildRoomMap (mkNodes rooms) edges
                    (normalizeOrigins origins) }) := by
    unfold mkMap
    simp only [h]
  refine ⟨⟨fun he => ?_, fun he => ?_⟩, fun hne => ?_, fun hnull => ?_⟩
  · rw [hmk, if_pos (by simp [he])]
  · by_contra hne
    rw [hmk, if_neg (by simpa using hne)] at he
    exact (Except.noConfusion he)
  · rw [hmk, if_neg (by simpa using hne)]
    rfl
  · have h2 : constructMinimap (mkNodes rooms) rooms = .ok (([] : Origins), ([] : Edges)) :=
      constructRooms_nulls hnull ([], [])
    have h3 := h.symm.trans h2
    simp only [Except.ok.injEq, Prod.mk.injEq] at h3
    exact h3.1

theorem c6_witness :
    constructMinimap (mkNodes singleNoExit) singleNoExit = .ok ([], []) ∧
    mkMap singleNoExit = .error .emptyOrigins ∧
    ((([] : Origins) = [] ↔ mkMap singleNoExit = .error .emptyOrigins) ∧
      (([] : Origins) ≠ [] → (mkMap singleNoExit).isOk = true) ∧
      ((∀ nr ∈ singleNoExit, ∀ d, (nr.2 : MRoom).paths d = none) → ([] : Origins) = [])) :=
  ⟨rfl, rfl, @c6_empty_fails singleNoExit [] [] rfl⟩

/-- C3: after a successful `Map.__init__`, every room recorded in
`room_map` has a normalized origin, and its recorded node id equals
`x + y*width` of that origin, where `width` is the maximum normalized x over
all assigned origins plus one. -/
theorem c3_node_id {rooms : List (String × MRoom)} {m : MapData}
    (h : mkMap rooms = .ok m) :
    (∀ name info, (name, info) ∈ m.room_map → (getKV name m.origins).isSome) ∧
    (∀ name info p, (name, info) ∈ m.room_map → getKV name m.origins = some p →
      (info : RoomInfo).node_id = p.x + p.y * (maxX m.origins + 1)) := by
  obtain ⟨origins, edges, hc, hne, hno, hrm⟩ := mkMap_ok_elim h
  obtain ⟨hnd0, _⟩ := constructMinimap_inv hc
  have hndn : ((normalizeOrigins origins).map Prod.fst).Nodup := by
    rw [normalizeOrigins_keys]
    exact hnd0
  constructor
  · intro name info hmem
    rw [hrm] at hmem
    unfold buildRoomMap at hmem
    obtain ⟨⟨n0, p0⟩, hnp, he⟩ := List.mem_map.mp hmem
    simp only [Prod.mk.injEq] at he
    rw [hno, ← he.1]
    exact getKV_isSome_of_mem hnp
  · intro name info p hmem hget
    rw [hrm] at hmem
    rw [hno] at hget
    unfold buildRoomMap at hmem
    obtain ⟨⟨n0, p0⟩, hnp, he⟩ := List.mem_map.mp hmem
    simp only [Prod.mk.injEq] at he
    obtain ⟨he1, he2⟩ := he
    subst he1
    have hg0 : getKV n0 (normalizeOrigins origins) = some p0 :=
      mem_getKV_of_nodup hndn hnp
    have hpp : p = p0 := by
      have : some p = some p0 := hget.symm.trans hg0
      injection this
    rw [← he2, hpp, hno]

theorem c3_witness :
    mkMap upDownRooms = .ok upDownMap ∧
    ((∀ name info, (name, info) ∈ upDownMap.room_map →
        (getKV name upDownMap.origins).isSome) ∧
      (∀ name info p, (name, info) ∈ upDownMap.room_map →
        getKV name upDownMap.origins = some p →
        (info : RoomInfo).node_id = p.x + p.y * (maxX upDownMap.origins + 1))) :=
  ⟨rfl, @c3_node_id upDownRooms upDownMap rfl⟩

/-- C4: if room A (with distinct rooms A, B in a duplicate-free room set)
lists B as a directional neighbor, then after a successful `Map.__init__`
both rooms appear in `room_map`, B's final node id is in A's neighbor-id
list, and A's final node id is in B's neighbor-id list — even if only A
references B. -/
theorem c4_symmetry {rooms : List (String × MRoom)} {m : MapData} {A B : String}
    {rA : MRoom} {d : Dir}
    (hnd : (rooms.map Prod.fst).Nodup)
    (hmem : (A, rA) ∈ rooms) (hAB : A ≠ B) (hp : rA.paths d = some B)
    (h : mkMap rooms = .ok m) :
    (getKV A m.room_map).isSome ∧ (getKV B m.room_map).isSome ∧
    ∀ infoA infoB, getKV A m.room_map = some infoA →
      getKV B m.room_map = some infoB →
      infoB.node_id ∈ infoA.edges ∧ infoA.node_id ∈ infoB.edges := by
  obtain ⟨origins, edges, hc, hne, hno, hrm⟩ := mkMap_ok_elim h
  obtain ⟨hnd0, _⟩ := constructMinimap_inv hc
  obtain ⟨_, hdomn⟩ := mkMap_origins_nodup h
  obtain ⟨a, b, hna, hnb, hAo, hBo, hedge⟩ := constructRooms_hit hmem hp hc
  have hndn : ((normalizeOrigins origins).map Prod.fst).Nodup := by
    rw [normalizeOrigins_keys]
    exact hnd0
  -- A and B have normalized origins
  have hAn : (getKV A (normalizeOrigins origins)).isSome := by
    rw [getKV_isSome_iff_mem_keys, normalizeOrigins_keys,
      ← getKV_isSome_iff_mem_keys]
    exact hAo
  have hBn : (getKV B (normalizeOrigins origins)).isSome := by
    rw [getKV_isSome_iff_mem_keys, normalizeOrigins_keys,
      ← getKV_isSome_iff_mem_keys]
    exact hBo
  obtain ⟨qA, hqA⟩ := Option.isSome_iff_exists.mp hAn
  obtain ⟨qB, hqB⟩ := Option.isSome_iff_exists.mp hBn
  -- final-id table keys are pairwise distinct
  have hinj : ∀ n₁ n₂ j, getKV n₁ (mkNodes rooms) = some j →
      getKV n₂ (mkNodes rooms) = some j → n₁ = n₂ := by
    intro n₁ n₂ j h₁ h₂
    exact mkNodesFrom_inj h₁ h₂
  have hdomn' : ∀ k, (getKV k (normalizeOrigins origins)).isSome →
      (getKV k (mkNodes rooms)).isSome := by
    intro k hk
    refine hdomn k ?_
    rw [hno]
    exact hk
  have hknd := finalKeys_nodup hinj hdomn' hndn
  -- room_map entries for A and B
  have hbrA := @getKV_buildRoomMap (mkNodes rooms) edges (normalizeOrigins origins)
    hndn A qA (getKV_mem hqA)
  have hbrB := @getKV_buildRoomMap (mkNodes rooms) edges (normalizeOrigins origins)
    hndn B qB (getKV_mem hqB)
  rw [hrm]
  refine ⟨by simp [hbrA], by simp [hbrB], ?_⟩
  intro infoA infoB hiA hiB
  have hiA' : infoA =
      { node_id := qA.x + qA.y * (maxX (normalizeOrigins origins) + 1),
        edges := (nxNeighbors edges ((getKV A (mkNodes rooms)).getD 0)).map
          (fun u => (getKV u (finalIdsOf (mkNodes rooms) (normalizeOrigins origins))).getD 0) } := by
    have := hiA.symm.trans hbrA
    injection this
  have hiB' : infoB =
      { node_id := qB.x + qB.y * (maxX (normalizeOrigins origins) + 1),
        edges := (nxNeighbors edges ((getKV B (mkNodes rooms)).getD 0)).map
          (fun u => (getKV u (finalIdsOf (mkNodes rooms) (normalizeOrigins origins))).getD 0) } := by
    have := hiB.symm.trans hbrB
    injection this
  have hfinB := getKV_finalIdsOf hknd (getKV_mem hqB)
  have hfinA := getKV_finalIdsOf hknd (getKV_mem hqA)
  obtain ⟨hnbrA, hnbrB⟩ := mem_nxNeighbors_of_edge hedge
  have hgb : (getKV B (mkNodes rooms)).getD 0 = b := by
    rw [hnb]
    rfl
  have hga : (getKV A (mkNodes rooms)).getD 0 = a := by
    rw [hna]
    rfl
  rw [hgb] at hfinB
  rw [hga] at hfinA
  constructor
  · rw [hiA', hiB']
    refine List.mem_map.mpr ⟨b, ?_, ?_⟩
    · rw [hga]
      exact hnbrA
    · rw [hfinB]
      rfl
  · rw [hiA', hiB']
    refine List.mem_map.mpr ⟨a, ?_, ?_⟩
    · rw [hgb]
      exact hnbrB
    · rw [hfinA]
      rfl

/-- C9: for any successfully built map, when the player's location is not
among the rendered room labels the highlight lookup of `Map.show` fails
loudly (the modelled ValueError of `.index`); when it is present, the
produced color list is uniformly "blue" except exactly the node whose label
equals the player's location, which is "red" — and exactly one node is
"red". -/
theorem c9_highlight {rooms : List (String × MRoom)} {m : MapData} (loc : String)
    (h : mkMap rooms = .ok m) :
    (showColors m.room_map loc = none ↔ loc ∉ minimapLabels m.room_map) ∧
    ∀ cm, showColors m.room_map loc = some cm →
      cm = (minimapLabels m.room_map).map (fun v => if v = loc then "red" else "blue") ∧
      cm.count "red" = 1 := by
  obtain ⟨origins, edges, hc, hne, hno, hrm⟩ := mkMap_ok_elim h
  obtain ⟨hnd0, _⟩ := constructMinimap_inv hc
  have hkeys : (m.room_map.map Prod.fst).Nodup := by
    rw [hrm]
    have hbk : (buildRoomMap (mkNodes rooms) edges (normalizeOrigins origins)).map
        Prod.fst = (normalizeOrigins origins).map Prod.fst := by
      unfold buildRoomMap
      rw [List.map_map]
      rfl
    rw [hbk, normalizeOrigins_keys]
    exact hnd0
  have hlnd := minimapLabels_nodup hkeys
  cases hidx : listIndex loc (minimapLabels m.room_map) with
  | none =>
    have hscn : showColors m.room_map loc = none := by
      show (match listIndex loc (minimapLabels m.room_map) with
            | none => none
            | some i =>
              some ((List.replicate (minimapLabels m.room_map).length "blue").set i
                "red")) = none
      rw [hidx]
    refine ⟨?_, ?_⟩
    · rw [hscn]
      simp [listIndex_eq_none_iff.mp hidx]
    · intro cm hcm
      rw [hscn] at hcm
      exact (Option.noConfusion hcm)
  | some i =>
    have hscs : showColors m.room_map loc =
        some ((List.replicate (minimapLabels m.room_map).length "blue").set i "red") := by
      show (match listIndex loc (minimapLabels m.room_map) with
            | none => none
            | some i =>
              some ((List.replicate (minimapLabels m.room_map).length "blue").set i
                "red")) = _
      rw [hidx]
    refine ⟨?_, ?_⟩
    · rw [hscs]
      constructor
      · intro hh
        exact (Option.noConfusion hh)
      · intro hmem
        exact absurd (listIndex_mem hidx) hmem
    · intro cm hcm
      rw [hscs] at hcm
      have hcm' : (List.replicate (minimapLabels m.room_map).length "blue").set i "red" =
          cm := by
        injection hcm
      rw [← hcm', replicate_set_eq_map hlnd hidx]
      exact ⟨rfl, count_red_one hlnd (listIndex_mem hidx)⟩

theorem c9_witness :
    mkMap oneWayRooms = .ok oneWayMap ∧
    ((showColors oneWayMap.room_map "A" = none ↔ "A" ∉ minimapLabels oneWayMap.room_map) ∧
      ∀ cm, showColors oneWayMap.room_map "A" = some cm →
        cm = (minimapLabels oneWayMap.room_map).map
          (fun v => if v = "A" then "red" else "blue") ∧
        cm.count "red" = 1) ∧
    ((showColors oneWayMap.room_map "C" = none ↔ "C" ∉ minimapLabels oneWayMap.room_map) ∧
      ∀ cm, showColors oneWayMap.room_map "C" = some cm →
        cm = (minimapLabels oneWayMap.room_map).map
          (fun v => if v = "C" then "red" else "blue") ∧
        cm.count "red" = 1) :=
  ⟨rfl, @c9_highlight oneWayRooms oneWayMap "A" rfl,
    @c9_highlight oneWayRooms oneWayMap "C" rfl⟩

/-- C7: one load/save pass is idempotent — for any well-formed world
document D (one `Game(D)` accepts), saving the reloaded save equals the
first save, and the saved snapshot holds exactly the
player/rooms/items/npc fields (no minimap, no node ids). -/
theorem c7_round_trip {D : Val} {g : Game} (h : loadGame D = some g) :
    (loadGame (Game.save g)).map Game.save = some (Game.save g) ∧
    (Game.save g).keys = ["player", "rooms", "items", "npc"] := by
  rw [loadGame_save h]
  exact ⟨rfl, rfl⟩

theorem c7_witness :
    loadGame d0World = some g0Game ∧
    ((loadGame (Game.save g0Game)).map Game.save = some (Game.save g0Game) ∧
      (Game.save g0Game).keys = ["player", "rooms", "items", "npc"]) :=
  ⟨rfl, @c7_round_trip d0World g0Game rfl⟩

/-- C10: building an entity record from any input mapping and saving it
yields a mapping with exactly that entity's fixed key set —
messages/door/fight/paths for Room, position/inventory/stats for Player,
description/damage for Item, health/attack/points for Nonplayer — where
each value is the input's value for the key (`dget` returns null when the
key is absent), and every other input key is discarded. -/
theorem c10_entity_normalize (l : List (String × Val)) :
    (loadRoom (.dict l)).map Room.save =
      some (.dict [("messages", dget l "messages"), ("door", dget l "door"),
        ("fight", dget l "fight"), ("paths", dget l "paths")]) ∧
    (loadPlayer (.dict l)).map Player.save =
      some (.dict [("position", dget l "position"),
        ("inventory", dget l "inventory"), ("stats", dget l "stats")]) ∧
    (loadItem (.dict l)).map Item.save =
      some (.dict [("description", dget l "description"),
        ("damage", dget l "damage")]) ∧
    (loadNonplayer (.dict l)).map Nonplayer.save =
      some (.dict [("health", dget l "health"), ("attack", dget l "attack"),
        ("points", dget l "points")]) :=
  ⟨rfl, rfl, rfl, rfl⟩

/-- C8, claim as stated, refuted: the claim says the validator reports
"Going right from A will lead to an error." for the dangling reference
`A: {right: "Ghost"}`.  The validator's loop (saveload.py lines 66-68) only
checks north/south/east/west, so on that input it prints four
missing-key lines and never the "Going right..." line. -/
theorem c8_counterexample :
    checkRooms [("A", [("right", some "Ghost")])] =
      ["A does not have north as a key.", "A does not have south as a key.",
       "A does not have east as a key.", "A does not have west as a key."] ∧
    "Going right from A will lead to an error." ∉
      checkRooms [("A", [("right", some "Ghost")])] :=
  ⟨rfl, by decide⟩

/-- C8 (amended): the validator checks only the four compass directions
north/south/east/west.  For each of those, a dangling room reference is
reported per occurrence as "Going <direction> from <name> will lead to an
error." and the check loop continues — it is total and emits exactly one
line per room and checked direction.  The grid direction `right` is not
checked by the loop, although `_path` itself, called directly with
direction "right" on `A: {right: "Ghost"}`, does produce that line. -/
theorem c8_dangling {rooms : List (String × List (String × Option String))}
    {name direction dest : String} {room : List (String × Option String)}
    (hroom : getKV name rooms = some room) (hd : direction ∈ DIRECTIONS)
    (hdest : getKV direction room = some (some dest))
    (hdangling : getKV dest rooms = none) :
    pathCheck rooms name direction =
      some ("Going " ++ direction ++ " from " ++ name ++ " will lead to an error.") ∧
    ((name, room) ∈ rooms →
      ("Going " ++ direction ++ " from " ++ name ++ " will lead to an error.") ∈
        checkRooms rooms) ∧
    (checkRooms rooms).length = 4 * rooms.length ∧
    pathCheck [("A", [("right", some "Ghost")])] "A" "right" =
      some "Going right from A will lead to an error." := by
  have hpc : pathCheck rooms name direction =
      some ("Going " ++ direction ++ " from " ++ name ++ " will lead to an error.") := by
    unfold pathCheck
    rw [hroom]
    simp only [Option.map_some']
    rw [hdest]
    simp [hdangling]
  refine ⟨hpc, ?_, checkRooms_length rooms, rfl⟩
  intro hmem
  unfold checkRooms
  refine List.mem_flatMap.mpr ⟨(name, room), hmem, ?_⟩
  refine List.mem_filterMap.mpr ⟨direction, hd, ?_⟩
  exact hpc

theorem c8_witness :
    pathCheck [("A", [("north", some "Ghost")])] "A" "north" =
      some ("Going " ++ "north" ++ " from " ++ "A" ++ " will lead to an error.") ∧
    ((("A", [("north", some "Ghost")]) ∈
        ([("A", [("north", some "Ghost")])] :
          List (String × List (String × Option String))) →
      ("Going " ++ "north" ++ " from " ++ "A" ++ " will lead to an error.") ∈
        checkRooms [("A", [("north", some "Ghost")])]) ∧
    (checkRooms [("A", [("north", some "Ghost")])]).length =
      4 * ([("A", [("north", some "Ghost")])] :
        List (String × List (String × Option String))).length ∧
    pathCheck [("A", [("right", some "Ghost")])] "A" "right" =
      some "Going right from A will lead to an error.") :=
  @c8_dangling [("A", [("north", some "Ghost")])] "A" "north" "Ghost"
    [("north", some "Ghost")] rfl (by decide) rfl rfl

theorem c4_witness :
    mkMap oneWayRooms = .ok oneWayMap ∧
    ((getKV "A" oneWayMap.room_map).isSome ∧ (getKV "B" oneWayMap.room_map).isSome ∧
      ∀ infoA infoB, getKV "A" oneWayMap.room_map = some infoA →
        getKV "B" oneWayMap.room_map = some infoB →
        infoB.node_id ∈ infoA.edges ∧ infoA.node_id ∈ infoB.edges) :=
  ⟨rfl, @c4_symmetry oneWayRooms oneWayMap "A" "B"
    { noExitRoom with right := some "B" } .right (by decide) (by decide)
    (by decide) rfl rfl⟩

end Dork
